import Mathlib

/-!
# josestg/pair: the generic pair and its JSON / database adapters

A shallow embedding of `src/pair.go`.

* `Pair`, `Of`, `First`, `Second`, `MarshalJSON`, `UnmarshalJSON`, `Value`
  and `Scan` are transcribed from the source, one definition per function.
  Pointer-receiver methods (`UnmarshalJSON`, `Scan`) take the pair the
  receiver points to and return the pair it points to afterwards together
  with the returned error.
* `encoding/json` is not part of the repository.  The part of it that the
  source calls is modelled here on byte sequences: the validating scanner
  (`scanValue`, `checkValid`), compaction (`compact`), the struct encoder and
  decoder for `jsonValue` (`marshalJsonValue`, `unmarshalJsonValue`) and the
  dispatch of `json.Marshal` / `json.Unmarshal` to a `Marshaler` /
  `Unmarshaler` (`jsonMarshalPair`, `jsonUnmarshalPair`).  The encoders and
  decoders of the two type parameters `F` and `S` are parameters (`Codec`).
  Resource limits of the library (the scanner's bound on nesting depth) are
  outside the model.
-/

namespace pair

/-! ## Bytes -/

/-- A Go `[]byte`; a Go `string` is a byte sequence as well. -/
abbrev Bytes := List Nat

/-- UTF-8 encoding of one code point. -/
def utf8Rune (n : Nat) : Bytes :=
  if n < 128 then [n]
  else if n < 2048 then [192 + n / 64, 128 + n % 64]
  else if n < 65536 then [224 + n / 4096, 128 + n / 64 % 64, 128 + n % 64]
  else [240 + n / 262144, 128 + n / 4096 % 64, 128 + n / 64 % 64, 128 + n % 64]

/-- The bytes of a string literal of the source (its UTF-8 encoding). -/
def utf8 (s : String) : Bytes :=
  s.toList.flatMap fun c => utf8Rune c.toNat

/-! ## The scanner of `encoding/json` -/

/-- JSON white space: space, tab, carriage return, line feed. -/
def isSpace (c : Nat) : Bool :=
  c = 32 || c = 9 || c = 13 || c = 10

def isDigit (c : Nat) : Bool :=
  decide (48 ≤ c) && decide (c ≤ 57)

def isHex (c : Nat) : Bool :=
  isDigit c || (decide (97 ≤ c) && decide (c ≤ 102)) || (decide (65 ≤ c) && decide (c ≤ 70))

/-- Drop leading white space. -/
def skipSpace : Bytes → Bytes
  | [] => []
  | c :: r => if isSpace c then skipSpace r else c :: r

/-- States of the scanner inside a number literal. -/
inductive NumState
  | neg | zero | int | dot | frac | e | esign | exp
  deriving DecidableEq

/-- One byte of a number literal: the scanner's `stateNeg`, `state0`,
`state1`, `stateDot`, `stateDot0`, `stateE`, `stateESign`, `stateE0`. -/
def numStep : NumState → Nat → Option NumState
  | .neg, c => if c = 48 then some .zero else if isDigit c then some .int else none
  | .zero, c => if c = 46 then some .dot else if c = 101 || c = 69 then some .e else none
  | .int, c =>
    if isDigit c then some .int else if c = 46 then some .dot
    else if c = 101 || c = 69 then some .e else none
  | .dot, c => if isDigit c then some .frac else none
  | .frac, c => if isDigit c then some .frac else if c = 101 || c = 69 then some .e else none
  | .e, c => if c = 43 || c = 45 then some .esign else if isDigit c then some .exp else none
  | .esign, c => if isDigit c then some .exp else none
  | .exp, c => if isDigit c then some .exp else none

/-- States in which a number literal may end. -/
def numAccept : NumState → Bool
  | .zero | .int | .frac | .exp => true
  | _ => false

/-- Scan the rest of a number literal: the literal's bytes and what follows. -/
def scanNum : NumState → Bytes → Option (Bytes × Bytes)
  | s, [] => if numAccept s then some ([], []) else none
  | s, c :: r =>
    match numStep s c with
    | some s' =>
      match scanNum s' r with
      | some (l, r') => some (c :: l, r')
      | none => none
    | none => if numAccept s then some ([], c :: r) else none

/-- States of the scanner inside a string literal. -/
inductive StrState
  | body | esc | u (k : Nat)
  deriving DecidableEq

/-- The state after one more hexadecimal digit of a `u` escape, `k` digits
being still to come after it. -/
def afterHex : Nat → StrState
  | 0 => .body
  | k + 1 => .u k

/-- Scan a string literal after its opening quote: the raw bytes before the
closing quote and what follows the closing quote (`stateInString`,
`stateInStringEsc`, `stateInStringEscU` and its successors). -/
def scanStr : StrState → Bytes → Option (Bytes × Bytes)
  | _, [] => none
  | .body, c :: r =>
    if c = 34 then some ([], r)
    else if c = 92 then
      match scanStr .esc r with
      | some (l, r') => some (c :: l, r')
      | none => none
    else if c < 32 then none
    else
      match scanStr .body r with
      | some (l, r') => some (c :: l, r')
      | none => none
  | .esc, c :: r =>
    if c = 98 || c = 102 || c = 110 || c = 114 || c = 116 || c = 92 || c = 47 || c = 34 then
      match scanStr .body r with
      | some (l, r') => some (c :: l, r')
      | none => none
    else if c = 117 then
      match scanStr (.u 3) r with
      | some (l, r') => some (c :: l, r')
      | none => none
    else none
  | .u k, c :: r =>
    if isHex c then
      match scanStr (afterHex k) r with
      | some (l, r') => some (c :: l, r')
      | none => none
    else none

/-- The hexadecimal digit of a value below 16, lower case. -/
def hexDigit (n : Nat) : Nat :=
  if n < 10 then 48 + n else 87 + n

/-- The escaping `appendCompact` applies with `escapeHTML` set, the first
argument counting input bytes already replaced: the bytes `<`, `>`, `&`
become a six-byte escape `u00XX`, and the three-byte encodings of U+2028 and
U+2029 become the escapes `u2028` and `u2029`. -/
def escapeFrom : Nat → Bytes → Bytes
  | _, [] => []
  | k + 1, _ :: r => escapeFrom k r
  | 0, c :: r =>
    if c = 60 || c = 62 || c = 38 then
      [92, 117, 48, 48, hexDigit (c / 16), hexDigit (c % 16)] ++ escapeFrom 0 r
    else if c = 226 && (r.take 2 = [128, 168] || r.take 2 = [128, 169]) then
      [92, 117, 50, 48, 50, hexDigit (r.getD 1 0 % 16)] ++ escapeFrom 2 r
    else c :: escapeFrom 0 r

/-- HTML-safe form of the raw bytes of a string literal. -/
def escapeHTML (raw : Bytes) : Bytes :=
  escapeFrom 0 raw

/-- A literal `true`, `false` or `null` at the head of the input. -/
def scanLit (lit : Bytes) (inp : Bytes) : Option (Bytes × Bytes) :=
  if lit.isPrefixOf inp then some (lit, inp.drop lit.length) else none

mutual
/-- Scan one JSON value at the head of the input (no leading white space):
the value in compact form and the input that follows it.  The first
argument bounds the recursion; `inp.length + 1` is always enough. -/
def scanValue : Nat → Bytes → Option (Bytes × Bytes)
  | 0, _ => none
  | _, [] => none
  | n + 1, c :: r =>
    if c = 123 then
      match skipSpace r with
      | d :: r' =>
        if d = 125 then some ([123, 125], r')
        else
          match scanMembers n (d :: r') with
          | some (o, r'') => some (123 :: o, r'')
          | none => none
      | [] => none
    else if c = 91 then
      match skipSpace r with
      | d :: r' =>
        if d = 93 then some ([91, 93], r')
        else
          match scanElements n (d :: r') with
          | some (o, r'') => some (91 :: o, r'')
          | none => none
      | [] => none
    else if c = 34 then
      match scanStr .body r with
      | some (raw, r') => some (34 :: escapeHTML raw ++ [34], r')
      | none => none
    else if c = 45 then
      match scanNum .neg r with
      | some (l, r') => some (c :: l, r')
      | none => none
    else if c = 48 then
      match scanNum .zero r with
      | some (l, r') => some (c :: l, r')
      | none => none
    else if isDigit c then
      match scanNum .int r with
      | some (l, r') => some (c :: l, r')
      | none => none
    else if c = 116 then scanLit [116, 114, 117, 101] (c :: r)
    else if c = 102 then scanLit [102, 97, 108, 115, 101] (c :: r)
    else if c = 110 then scanLit [110, 117, 108, 108] (c :: r)
    else none
/-- Scan `value (, value)* ]`, the input standing at the first byte of a
value; the output ends with the closing bracket. -/
def scanElements : Nat → Bytes → Option (Bytes × Bytes)
  | 0, _ => none
  | n + 1, inp =>
    match scanValue n inp with
    | some (o, r) =>
      match skipSpace r with
      | d :: r' =>
        if d = 44 then
          match scanElements n (skipSpace r') with
          | some (o', r'') => some (o ++ 44 :: o', r'')
          | none => none
        else if d = 93 then some (o ++ [93], r')
        else none
      | [] => none
    | none => none
/-- Scan `"key" : value (, "key" : value)* }`, the input standing at the
opening quote of a key; the output ends with the closing brace. -/
def scanMembers : Nat → Bytes → Option (Bytes × Bytes)
  | 0, _ => none
  | _, [] => none
  | n + 1, c :: r =>
    if c = 34 then
      match scanStr .body r with
      | some (k, r1) =>
        match skipSpace r1 with
        | d :: r2 =>
          if d = 58 then
            match scanValue n (skipSpace r2) with
            | some (o, r3) =>
              match skipSpace r3 with
              | e :: r4 =>
                if e = 44 then
                  match scanMembers n (skipSpace r4) with
                  | some (o', r5) => some (34 :: escapeHTML k ++ 34 :: 58 :: o ++ 44 :: o', r5)
                  | none => none
                else if e = 125 then some (34 :: escapeHTML k ++ 34 :: 58 :: o ++ [125], r4)
                else none
              | [] => none
            | none => none
          else none
        | [] => none
      | none => none
    else none
end

/-- The value text of a document: `checkValid` accepts the data (white
space, one value, white space) and the decoder then works on the bytes of
the value, `d.data[start:d.off]`.  `none` is a `*json.SyntaxError`. -/
def valueSlice (data : Bytes) : Option Bytes :=
  match scanValue (data.length + 1) (skipSpace data) with
  | some (_, r) =>
    if skipSpace r = [] then some ((skipSpace data).take ((skipSpace data).length - r.length))
    else none
  | none => none

/-- The scanner's verdict on a whole document (`checkValid`). -/
def checkValid (data : Bytes) : Bool :=
  (valueSlice data).isSome

/-- What `appendCompact` with `escapeHTML` set writes for a document, `none`
when the scanner rejects it. -/
def compact (data : Bytes) : Option Bytes :=
  match scanValue (data.length + 1) (skipSpace data) with
  | some (o, r) => if skipSpace r = [] then some o else none
  | none => none

/-! ## Errors and the codecs of the type parameters -/

/-- The error values the code can return. -/
inductive Error
  /-- A `*json.SyntaxError`. -/
  | syntaxError
  /-- A `*json.UnmarshalTypeError`, with its `Value` field. -/
  | unmarshalType (value : String)
  /-- An error of a field's own encoder or decoder. -/
  | field (msg : String)
  /-- A `*json.MarshalerError` wrapping the error of `MarshalJSON`. -/
  | marshaler (e : Error)
  /-- The error `fmt.Errorf` builds, with its message. -/
  | errorf (msg : String)
  deriving DecidableEq

/-- Equality of Go results, a value or an error, is decidable. -/
instance instDecidableEqExcept {ε α : Type} [DecidableEq ε] [DecidableEq α] :
    DecidableEq (Except ε α)
  | .ok a, .ok b =>
    if h : a = b then isTrue (by rw [h]) else isFalse (fun e => h (by cases e; rfl))
  | .error a, .error b =>
    if h : a = b then isTrue (by rw [h]) else isFalse (fun e => h (by cases e; rfl))
  | .ok _, .error _ => isFalse (fun e => by cases e)
  | .error _, .ok _ => isFalse (fun e => by cases e)

/-- What `encoding/json` does for a type `T` that is a type argument of the
pair: `T`'s zero value, `json.Marshal` of a `T`, and the decoding of the
bytes of one JSON value into a variable of type `T` holding `cell` (the new
content of the variable and the error saved, if any). -/
structure Codec (T : Type) where
  zero : T
  marshal : T → Except Error Bytes
  unmarshal : Bytes → T → T × Option Error

/-- Continuation byte of a UTF-8 sequence. -/
def isCont (b : Nat) : Bool :=
  decide (128 ≤ b) && decide (b ≤ 191)

/-- Go's `utf8.DecodeRune`: the rune at the head of the bytes and its width;
an invalid or truncated sequence is U+FFFD of width 1. -/
def decodeRune : Bytes → Nat × Nat
  | [] => (65533, 0)
  | b0 :: r =>
    if b0 < 128 then (b0, 1)
    else if 194 ≤ b0 && b0 ≤ 223 then
      match r with
      | b1 :: _ => if isCont b1 then ((b0 - 192) * 64 + (b1 - 128), 2) else (65533, 1)
      | [] => (65533, 1)
    else if 224 ≤ b0 && b0 ≤ 239 then
      match r with
      | b1 :: b2 :: _ =>
        if (if b0 = 224 then 160 else 128) ≤ b1 && b1 ≤ (if b0 = 237 then 159 else 191)
            && isCont b2 then
          ((b0 - 224) * 4096 + (b1 - 128) * 64 + (b2 - 128), 3)
        else (65533, 1)
      | _ => (65533, 1)
    else if 240 ≤ b0 && b0 ≤ 244 then
      match r with
      | b1 :: b2 :: b3 :: _ =>
        if (if b0 = 240 then 144 else 128) ≤ b1 && b1 ≤ (if b0 = 244 then 143 else 191)
            && isCont b2 && isCont b3 then
          ((b0 - 240) * 262144 + (b1 - 128) * 4096 + (b2 - 128) * 64 + (b3 - 128), 4)
        else (65533, 1)
      | _ => (65533, 1)
    else (65533, 1)

/-- Value of a hexadecimal digit. -/
def hexVal (c : Nat) : Nat :=
  if isDigit c then c - 48 else if 97 ≤ c then c - 87 else c - 55

/-- Go's `getu4`: the code unit of a six-byte escape at the head of the
bytes, `none` where Go returns -1. -/
def getu4 : Bytes → Option Nat
  | 92 :: 117 :: a :: b :: c :: d :: _ =>
    if isHex a && isHex b && isHex c && isHex d then
      some (hexVal a * 4096 + hexVal b * 256 + hexVal c * 16 + hexVal d)
    else none
  | _ => none

/-- The byte a two-byte escape stands for. -/
def escByte (e : Nat) : Nat :=
  if e = 98 then 8 else if e = 102 then 12 else if e = 110 then 10
  else if e = 114 then 13 else if e = 116 then 9 else e

/-- Go's `unquoteBytes` on the raw bytes of a string literal the scanner
accepted: escapes are resolved, escaped surrogate pairs are combined, and
bytes that are not valid UTF-8 are replaced by U+FFFD.  The first argument
bounds the recursion. -/
def unquoteAux : Nat → Bytes → Bytes
  | 0, _ => []
  | _, [] => []
  | k + 1, c :: r =>
    if c = 92 then
      match r with
      | [] => []
      | e :: r1 =>
        if e = 117 then
          match getu4 (c :: r) with
          | none => []
          | some rr =>
            if 55296 ≤ rr && rr < 57344 then
              match getu4 (r1.drop 4) with
              | some rr1 =>
                if rr < 56320 && 56320 ≤ rr1 && rr1 < 57344 then
                  utf8Rune ((rr - 55296) * 1024 + (rr1 - 56320) + 65536)
                    ++ unquoteAux k (r1.drop 10)
                else utf8Rune 65533 ++ unquoteAux k (r1.drop 4)
              | none => utf8Rune 65533 ++ unquoteAux k (r1.drop 4)
            else utf8Rune rr ++ unquoteAux k (r1.drop 4)
        else escByte e :: unquoteAux k r1
    else if c < 128 then c :: unquoteAux k r
    else utf8Rune (decodeRune (c :: r)).1 ++ unquoteAux k (r.drop ((decodeRune (c :: r)).2 - 1))

/-- The Go string a string literal with these raw bytes denotes. -/
def unquote (raw : Bytes) : Bytes :=
  unquoteAux raw.length raw

/-- Go's `foldName` on valid UTF-8, the first argument counting bytes already
replaced: ASCII letters are upper-cased, the Kelvin sign U+212A folds to `K`
and the long s U+017F to `S` (the two runes outside ASCII whose fold orbit
contains an ASCII letter); every other rune is kept, which agrees with Go
wherever the result is compared with the folded name of an ASCII field. -/
def foldFrom : Nat → Bytes → Bytes
  | _, [] => []
  | k + 1, _ :: r => foldFrom k r
  | 0, c :: r =>
    if 97 ≤ c && c ≤ 122 then (c - 32) :: foldFrom 0 r
    else if c = 226 && r.take 2 = [132, 170] then 75 :: foldFrom 2 r
    else if c = 197 && r.take 1 = [191] then 83 :: foldFrom 1 r
    else c :: foldFrom 0 r

def foldName (name : Bytes) : Bytes :=
  foldFrom 0 name

/-! ## `jsonValue` and its encoding and decoding by `encoding/json` -/

/-- The struct `jsonValue[F, S]` of the source, tagged `json:"key"` and
`json:"value"`. -/
structure jsonValue (F S : Type) where
  Key : F
  Value : S

/-- The fields of `jsonValue`. -/
inductive Field
  | Key | Value
  deriving DecidableEq

/-- The field of `jsonValue` an object key selects: the exact name first,
then the folded name; `none` for a key that is ignored. -/
def fieldByName (key : Bytes) : Option Field :=
  if key = utf8 "key" then some .Key
  else if key = utf8 "value" then some .Value
  else if foldName key = foldName (utf8 "key") then some .Key
  else if foldName key = foldName (utf8 "value") then some .Value
  else none

/-- The members of an object, the input standing at the opening quote of the
first key: for each member the raw bytes of its key and the bytes of its
value, in input order. -/
def objectMembers : Nat → Bytes → Option (List (Bytes × Bytes))
  | 0, _ => none
  | _, [] => none
  | n + 1, c :: r =>
    if c = 34 then
      match scanStr .body r with
      | some (k, r1) =>
        match skipSpace r1 with
        | d :: r2 =>
          if d = 58 then
            match scanValue n (skipSpace r2) with
            | some (_, r3) =>
              match skipSpace r3 with
              | e :: r4 =>
                if e = 44 then
                  match objectMembers n (skipSpace r4) with
                  | some ms =>
                    some ((k, (skipSpace r2).take ((skipSpace r2).length - r3.length)) :: ms)
                  | none => none
                else if e = 125 then
                  some [(k, (skipSpace r2).take ((skipSpace r2).length - r3.length))]
                else none
              | [] => none
            | none => none
          else none
        | [] => none
      | none => none
    else none

/-- One member of an object decoded into a `jsonValue`: the value goes into
the field the key selects, a key that selects none is skipped, and of the
errors only the first is kept (`d.saveError`). -/
def storeMember {F S : Type} (cf : Codec F) (cs : Codec S)
    (acc : jsonValue F S × Option Error) (m : Bytes × Bytes) : jsonValue F S × Option Error :=
  match fieldByName (unquote m.1) with
  | some .Key =>
    ({ acc.1 with Key := (cf.unmarshal m.2 acc.1.Key).1 },
      if acc.2.isSome then acc.2 else (cf.unmarshal m.2 acc.1.Key).2)
  | some .Value =>
    ({ acc.1 with Value := (cs.unmarshal m.2 acc.1.Value).1 },
      if acc.2.isSome then acc.2 else (cs.unmarshal m.2 acc.1.Value).2)
  | none => acc

/-- The decoder on the bytes `v` of one valid JSON value with a `jsonValue`
as target: an object is decoded member by member, `null` leaves the struct
as it is, and every other value is an `UnmarshalTypeError`. -/
def decodeJsonValue {F S : Type} (cf : Codec F) (cs : Codec S) (v : Bytes)
    (jv : jsonValue F S) : jsonValue F S × Option Error :=
  match v with
  | [] => (jv, some .syntaxError)
  | c :: r =>
    if c = 123 then
      match skipSpace r with
      | [] => (jv, some .syntaxError)
      | d :: r' =>
        if d = 125 then (jv, none)
        else
          match objectMembers v.length (d :: r') with
          | some ms => ms.foldl (storeMember cf cs) (jv, none)
          | none => (jv, some .syntaxError)
    else if c = 110 then (jv, none)
    else if c = 91 then (jv, some (.unmarshalType "array"))
    else if c = 34 then (jv, some (.unmarshalType "string"))
    else if c = 116 || c = 102 then (jv, some (.unmarshalType "bool"))
    else (jv, some (.unmarshalType "number"))

/-- Go's `json.Unmarshal(data, &jv)` for a fresh `var jv jsonValue[F, S]`:
the struct afterwards and the error returned. -/
def unmarshalJsonValue {F S : Type} (cf : Codec F) (cs : Codec S) (data : Bytes) :
    jsonValue F S × Option Error :=
  match valueSlice data with
  | none => ({ Key := cf.zero, Value := cs.zero }, some .syntaxError)
  | some v => decodeJsonValue cf cs v { Key := cf.zero, Value := cs.zero }

/-- Go's `json.Marshal` of a `jsonValue`: the fields in declaration order
under their tags, with no white space. -/
def marshalJsonValue {F S : Type} (cf : Codec F) (cs : Codec S) (jv : jsonValue F S) :
    Except Error Bytes :=
  match cf.marshal jv.Key with
  | .error e => .error e
  | .ok ef =>
    match cs.marshal jv.Value with
    | .error e => .error e
    | .ok es => .ok (utf8 "\x7b\"key\":" ++ ef ++ utf8 ",\"value\":" ++ es ++ utf8 "\x7d")

/-! ## The source: `pair.go` -/

/-- The struct `Pair[F, S]`. -/
structure Pair (F S : Type) where
  f : F
  s : S
  deriving DecidableEq

/-- The function `Of`. -/
def Of {F S : Type} (f : F) (s : S) : Pair F S :=
  { f := f, s := s }

/-- The method `First`. -/
def Pair.First {F S : Type} (p : Pair F S) : F := p.f

/-- The method `Second`. -/
def Pair.Second {F S : Type} (p : Pair F S) : S := p.s

/-- The method `MarshalJSON`. -/
def Pair.MarshalJSON {F S : Type} (cf : Codec F) (cs : Codec S) (p : Pair F S) :
    Except Error Bytes :=
  marshalJsonValue cf cs { Key := p.f, Value := p.s }

/-- The method `UnmarshalJSON`: the pair behind the receiver after the call
and the error returned. -/
def Pair.UnmarshalJSON {F S : Type} (cf : Codec F) (cs : Codec S) (p : Pair F S)
    (data : Bytes) : Pair F S × Option Error :=
  match unmarshalJsonValue cf cs data with
  | (_, some err) => (p, some err)
  | (jv, none) => ({ f := jv.Key, s := jv.Value }, none)

/-- A Go value of type `any` as far as `Scan` and `Value` tell values apart:
nil, a `[]byte`, a `string`, or a value of another type, given by the name
`%T` prints for it. -/
inductive GoAny
  | nil
  | bytes (b : Bytes)
  | string (t : Bytes)
  | other (typeName : String)
  deriving DecidableEq

/-- Go's `json.Marshal(p)` for a `Pair`, which is a `json.Marshaler`: the
bytes of `p.MarshalJSON()` compacted, its error wrapped. -/
def jsonMarshalPair {F S : Type} (cf : Codec F) (cs : Codec S) (p : Pair F S) :
    Except Error Bytes :=
  match p.MarshalJSON cf cs with
  | .error e => .error (.marshaler e)
  | .ok b =>
    match compact b with
    | some o => .ok o
    | none => .error (.marshaler .syntaxError)

/-- Go's `json.Unmarshal(b, p)` for a `*Pair`, which is a `json.Unmarshaler`:
the data is checked and `p.UnmarshalJSON` gets the bytes of the value. -/
def jsonUnmarshalPair {F S : Type} (cf : Codec F) (cs : Codec S) (b : Bytes)
    (p : Pair F S) : Pair F S × Option Error :=
  match valueSlice b with
  | none => (p, some .syntaxError)
  | some v => p.UnmarshalJSON cf cs v

/-- The method `Value`. -/
def Pair.Value {F S : Type} (cf : Codec F) (cs : Codec S) (p : Pair F S) :
    Except Error GoAny :=
  match jsonMarshalPair cf cs p with
  | .error e => .error e
  | .ok b => .ok (.bytes b)

/-- The method `Scan`: the pair behind the receiver after the call and the
error returned. -/
def Pair.Scan {F S : Type} (cf : Codec F) (cs : Codec S) (p : Pair F S) (src : GoAny) :
    Pair F S × Option Error :=
  match src with
  | .nil => (p, none)
  | .bytes t => jsonUnmarshalPair cf cs t p
  | .string t => jsonUnmarshalPair cf cs t p
  | .other typeName => (p, some (.errorf ("pair: unexpected source data type: " ++ typeName)))

/-! ## The codecs of the types the tests instantiate: `int` and `string` -/

/-- Decimal digits of a natural number, most significant first; the first
argument bounds the recursion. -/
def decimalAux : Nat → Nat → Bytes → Bytes
  | 0, _, acc => acc
  | k + 1, n, acc =>
    if n < 10 then (48 + n) :: acc else decimalAux k (n / 10) ((48 + n % 10) :: acc)

/-- Go's `strconv.AppendInt(nil, n, 10)`. -/
def formatInt (n : Int) : Bytes :=
  if n < 0 then 45 :: decimalAux (n.natAbs + 1) n.natAbs []
  else decimalAux (n.natAbs + 1) n.natAbs []

/-- The value of a sequence of decimal digits, `none` if a byte is no digit. -/
def parseDigits : Bytes → Nat → Option Nat
  | [], acc => some acc
  | c :: r, acc => if isDigit c then parseDigits r (acc * 10 + (c - 48)) else none

/-- Go's `strconv.ParseInt(s, 10, 64)` on a number literal the scanner
accepted: `none` for a literal with a fraction or exponent and for a value
outside the 64-bit range. -/
def parseInt64 (item : Bytes) : Option Int :=
  match item with
  | [] => none
  | c :: r =>
    if c = 45 then
      match r, parseDigits r 0 with
      | _ :: _, some n => if n ≤ 2 ^ 63 then some (-(n : Int)) else none
      | _, _ => none
    else
      match parseDigits (c :: r) 0 with
      | some n => if n < 2 ^ 63 then some (n : Int) else none
      | none => none

/-- The name `UnmarshalTypeError.Value` gives a JSON value that is not a
number, by its first byte. -/
def valueKind (c : Nat) : String :=
  if c = 123 then "object" else if c = 91 then "array" else if c = 34 then "string"
  else if c = 116 || c = 102 then "bool" else "number"

/-- The codec of Go's `int` (64 bits). -/
def intCodec : Codec Int where
  zero := 0
  marshal n := .ok (formatInt n)
  unmarshal item cell :=
    match item with
    | [] => (cell, some .syntaxError)
    | c :: _ =>
      if c = 110 then (cell, none)
      else if c = 45 || isDigit c then
        match parseInt64 item with
        | some n => (n, none)
        | none => (cell, some (.unmarshalType "number"))
      else (cell, some (.unmarshalType (valueKind c)))

/-- Go's `appendString` with `escapeHTML` set, on the bytes of a Go string,
the first argument counting bytes already written as part of a rune. -/
def quoteFrom : Nat → Bytes → Bytes
  | _, [] => []
  | k + 1, _ :: r => quoteFrom k r
  | 0, c :: r =>
    if c < 128 then
      if c = 92 || c = 34 then 92 :: c :: quoteFrom 0 r
      else if c = 8 then 92 :: 98 :: quoteFrom 0 r
      else if c = 12 then 92 :: 102 :: quoteFrom 0 r
      else if c = 10 then 92 :: 110 :: quoteFrom 0 r
      else if c = 13 then 92 :: 114 :: quoteFrom 0 r
      else if c = 9 then 92 :: 116 :: quoteFrom 0 r
      else if c < 32 || c = 60 || c = 62 || c = 38 then
        [92, 117, 48, 48, hexDigit (c / 16), hexDigit (c % 16)] ++ quoteFrom 0 r
      else c :: quoteFrom 0 r
    else if (decodeRune (c :: r)).2 ≤ 1 then
      [92, 117, 102, 102, 102, 100] ++ quoteFrom 0 r
    else if (decodeRune (c :: r)).1 = 8232 || (decodeRune (c :: r)).1 = 8233 then
      [92, 117, 50, 48, 50, hexDigit ((decodeRune (c :: r)).1 % 16)] ++ quoteFrom 2 r
    else
      (c :: r).take (decodeRune (c :: r)).2 ++ quoteFrom ((decodeRune (c :: r)).2 - 1) r

/-- The codec of Go's `string`. -/
def stringCodec : Codec Bytes where
  zero := []
  marshal t := .ok (34 :: quoteFrom 0 t ++ [34])
  unmarshal item cell :=
    match item with
    | [] => (cell, some .syntaxError)
    | c :: r =>
      if c = 110 then (cell, none)
      else if c = 34 then (unquote r.dropLast, none)
      else (cell, some (.unmarshalType (valueKind c)))

/-! ## Predicates used in the statements -/

/-- No state of a number literal has a transition on the head of these
bytes (they are empty or start with a byte that is no part of a number). -/
def numStop : Bytes → Bool
  | [] => true
  | c :: _ => !(isDigit c || c = 46 || c = 101 || c = 69 || c = 43 || c = 45)

/-- Locality of `scanValue` at recursion bound `n`: a value that is read is
the head of the input, and its bytes are read as the same value with any
larger bound and before any rest that starts with no number byte. -/
def LocalV (n : Nat) : Prop :=
  ∀ inp o r, scanValue n inp = some (o, r) →
    ∃ c, inp = c ++ r ∧ c ≠ [] ∧
      ∀ m rest, c.length < m → numStop rest = true → scanValue m (c ++ rest) = some (o, rest)

/-- Locality of `scanElements` at recursion bound `n`. -/
def LocalE (n : Nat) : Prop :=
  ∀ inp o r, scanElements n inp = some (o, r) →
    ∃ c, inp = c ++ r ∧ c ≠ [] ∧
      ∀ m rest, c.length < m → scanElements m (c ++ rest) = some (o, rest)

/-- Locality of `scanMembers` at recursion bound `n`. -/
def LocalM (n : Nat) : Prop :=
  ∀ inp o r, scanMembers n inp = some (o, r) →
    ∃ c, inp = c ++ r ∧ c ≠ [] ∧
      ∀ m rest, c.length < m → scanMembers m (c ++ rest) = some (o, rest)

/-- The bytes `v` are the text of exactly one JSON value whose compact form
is `o`: they start with no white space and are read as `o` before any rest
that starts with no number byte. -/
def ReadsAs (v o : Bytes) : Prop :=
  v ≠ [] ∧ skipSpace v = v ∧
    ∀ m rest, v.length < m → numStop rest = true → scanValue m (v ++ rest) = some (o, rest)

/-- The object `MarshalJSON` writes, with the texts `a` and `b` of its two
values, followed by `tail`. -/
def objText (a b tail : Bytes) : Bytes :=
  123 :: 34 :: 107 :: 101 :: 121 :: 34 :: 58 ::
    (a ++ 44 :: 34 :: 118 :: 97 :: 108 :: 117 :: 101 :: 34 :: 58 :: (b ++ 125 :: tail))

/-- The bytes are the text of one JSON value with no white space around it
that compaction leaves as it is, as every output of `json.Marshal` is. -/
def Canonical (e : Bytes) : Prop :=
  valueSlice e = some e ∧ compact e = some e

/-! ## The scanner reads a value from its own bytes only -/

theorem numStep_none_of_numStop (s : NumState) (c : Nat) (r : Bytes)
    (h : numStop (c :: r) = true) : numStep s c = none := by
  simp only [numStop, Bool.not_eq_true', Bool.or_eq_false_iff, decide_eq_false_iff_not] at h
  obtain ⟨⟨⟨⟨⟨h1, h2⟩, h3⟩, h4⟩, h5⟩, h6⟩ := h
  have h48 : c ≠ 48 := by
    intro h; subst h; simp [isDigit] at h1
  cases s <;> simp [numStep, h1, h2, h3, h4, h5, h6, h48]

theorem skipSpace_append_of_ne_nil (a b : Bytes) (h : skipSpace a ≠ []) :
    skipSpace (a ++ b) = skipSpace a ++ b := by
  induction a with
  | nil => simp [skipSpace] at h
  | cons c r ih =>
    by_cases hc : isSpace c = true
    · simp only [List.cons_append, skipSpace, hc, if_true] at h ⊢
      exact ih h
    · simp [skipSpace, hc]

theorem skipSpace_append_of_eq_nil (a b : Bytes) (h : skipSpace a = []) :
    skipSpace (a ++ b) = skipSpace b := by
  induction a with
  | nil => rfl
  | cons c r ih =>
    by_cases hc : isSpace c = true
    · simp only [List.cons_append, skipSpace, hc, if_true] at h ⊢
      exact ih h
    · simp [skipSpace, hc] at h

theorem skipSpace_cons_of_not_space (c : Nat) (r : Bytes) (h : isSpace c = false) :
    skipSpace (c :: r) = c :: r := by
  simp [skipSpace, h]

/-- The input splits into the white space dropped and what is left. -/
theorem skipSpace_split (a : Bytes) :
    ∃ ws, a = ws ++ skipSpace a ∧ skipSpace ws = [] := by
  induction a with
  | nil => exact ⟨[], rfl, rfl⟩
  | cons c r ih =>
    by_cases hc : isSpace c = true
    · obtain ⟨ws, h1, h2⟩ := ih
      refine ⟨c :: ws, ?_, ?_⟩
      · simp only [skipSpace, hc, if_true, List.cons_append]
        exact congrArg (c :: ·) h1
      · simp [skipSpace, hc, h2]
    · exact ⟨[], by simp [skipSpace, hc], rfl⟩

theorem skipSpace_head_not_space (a : Bytes) (c : Nat) (r : Bytes)
    (h : skipSpace a = c :: r) : isSpace c = false := by
  induction a with
  | nil => simp [skipSpace] at h
  | cons d t ih =>
    by_cases hd : isSpace d = true
    · simp only [skipSpace, hd, if_true] at h
      exact ih h
    · simp only [skipSpace, hd] at h
      simp at h
      rw [← h.1]
      simpa using hd

theorem numStop_of_skipSpace (a : Bytes) (c : Nat) (r : Bytes)
    (h : skipSpace a = c :: r) (hc : c = 44 ∨ c = 93 ∨ c = 125) : numStop a = true := by
  cases a with
  | nil => rfl
  | cons d t =>
    by_cases hd : isSpace d = true
    · simp only [isSpace, Bool.or_eq_true, decide_eq_true_eq] at hd
      rcases hd with ((hd | hd) | hd) | hd <;> subst hd <;> rfl
    · simp only [skipSpace, hd] at h
      simp at h
      obtain ⟨h1, -⟩ := h
      subst h1
      rcases hc with hc | hc | hc <;> subst hc <;> rfl

/-- A number literal is read from its own bytes: the input is the literal
followed by the rest, and the literal is read again before any rest on
whose head no number state moves. -/
theorem scanNum_local (inp : Bytes) :
    ∀ (s : NumState) (l r : Bytes), scanNum s inp = some (l, r) →
      inp = l ++ r ∧ ∀ rest, numStop rest = true → scanNum s (l ++ rest) = some (l, rest) := by
  induction inp with
  | nil =>
    intro s l r h
    simp only [scanNum] at h
    split at h
    · rename_i hacc
      simp at h
      obtain ⟨h1, h2⟩ := h
      subst h1; subst h2
      refine ⟨rfl, ?_⟩
      intro rest hrest
      cases rest with
      | nil => simp [scanNum, hacc]
      | cons c t => simp [scanNum, numStep_none_of_numStop s c t hrest, hacc]
    · simp at h
  | cons c t ih =>
    intro s l r h
    simp only [scanNum] at h
    cases hstep : numStep s c with
    | none =>
      simp only [hstep] at h
      split at h
      · rename_i hacc
        simp at h
        obtain ⟨h1, h2⟩ := h
        subst h1; subst h2
        refine ⟨rfl, ?_⟩
        intro rest hrest
        cases rest with
        | nil => simp [scanNum, hacc]
        | cons c' t' => simp [scanNum, numStep_none_of_numStop s c' t' hrest, hacc]
      · simp at h
    | some s' =>
      simp only [hstep] at h
      cases hrec : scanNum s' t with
      | none => simp [hrec] at h
      | some p =>
        obtain ⟨l', r'⟩ := p
        simp only [hrec] at h
        simp at h
        obtain ⟨h1, h2⟩ := h
        subst h1; subst h2
        obtain ⟨e1, e2⟩ := ih s' l' r' hrec
        refine ⟨by simp [e1], ?_⟩
        intro rest hrest
        simp [scanNum, hstep, e2 rest hrest]

/-- A string literal is read from its own bytes: the input is the raw bytes,
the closing quote and the rest, and the same is read before any rest. -/
theorem scanStr_local (inp : Bytes) :
    ∀ (st : StrState) (l r : Bytes), scanStr st inp = some (l, r) →
      inp = l ++ 34 :: r ∧ ∀ rest, scanStr st (l ++ 34 :: rest) = some (l, rest) := by
  induction inp with
  | nil => intro st l r h; simp [scanStr] at h
  | cons c t ih =>
    intro st l r h
    cases st with
    | body =>
      simp only [scanStr] at h
      by_cases h34 : c = 34
      · simp only [h34, if_true] at h
        simp at h
        obtain ⟨h1, h2⟩ := h
        subst h1; subst h2
        exact ⟨by simp [h34], fun rest => by simp [scanStr]⟩
      · simp only [h34, if_false] at h
        by_cases h92 : c = 92
        · simp only [h92, if_true] at h
          cases hrec : scanStr .esc t with
          | none => simp [hrec] at h
          | some p =>
            obtain ⟨l', r'⟩ := p
            simp [hrec] at h
            obtain ⟨h1, h2⟩ := h
            subst h1; subst h2
            obtain ⟨e1, e2⟩ := ih _ _ _ hrec
            exact ⟨by simp [e1, h92], fun rest => by simp [scanStr, e2 rest]⟩
        · simp only [h92, if_false] at h
          by_cases h32 : c < 32
          · simp [h32] at h
          · simp only [h32, if_false] at h
            cases hrec : scanStr .body t with
            | none => simp [hrec] at h
            | some p =>
              obtain ⟨l', r'⟩ := p
              simp [hrec] at h
              obtain ⟨h1, h2⟩ := h
              subst h1; subst h2
              obtain ⟨e1, e2⟩ := ih _ _ _ hrec
              exact ⟨by simp [e1], fun rest => by simp [scanStr, e2 rest, h34, h92, h32]⟩
    | esc =>
      simp only [scanStr] at h
      split at h
      · rename_i hc
        cases hrec : scanStr .body t with
        | none => simp [hrec] at h
        | some p =>
          obtain ⟨l', r'⟩ := p
          simp [hrec] at h
          obtain ⟨h1, h2⟩ := h
          subst h1; subst h2
          obtain ⟨e1, e2⟩ := ih _ _ _ hrec
          exact ⟨by simp [e1], fun rest => by simp [scanStr, e2 rest, hc]⟩
      · rename_i hc
        split at h
        · rename_i hu
          cases hrec : scanStr (.u 3) t with
          | none => simp [hrec] at h
          | some p =>
            obtain ⟨l', r'⟩ := p
            simp [hrec] at h
            obtain ⟨h1, h2⟩ := h
            subst h1; subst h2
            obtain ⟨e1, e2⟩ := ih _ _ _ hrec
            exact ⟨by simp [e1], fun rest => by simp [scanStr, e2 rest, hc, hu]⟩
        · simp at h
    | u k =>
      simp only [scanStr] at h
      split at h
      · rename_i hc
        cases hrec : scanStr (afterHex k) t with
        | none => simp [hrec] at h
        | some p =>
          obtain ⟨l', r'⟩ := p
          simp [hrec] at h
          obtain ⟨h1, h2⟩ := h
          subst h1; subst h2
          obtain ⟨e1, e2⟩ := ih _ _ _ hrec
          exact ⟨by simp [e1], fun rest => by simp [scanStr, e2 rest, hc]⟩
      · simp at h

theorem scanLit_local (lit inp o r : Bytes) (h : scanLit lit inp = some (o, r)) :
    o = lit ∧ inp = lit ++ r ∧ ∀ rest, scanLit lit (lit ++ rest) = some (lit, rest) := by
  simp only [scanLit] at h
  split at h
  · rename_i hp
    simp at h
    obtain ⟨h1, h2⟩ := h
    subst h1; subst h2
    rw [ List.isPrefixOf_iff_prefix] at hp
    obtain ⟨t, ht⟩ := hp
    subst ht
    refine ⟨rfl, by simp, ?_⟩
    intro rest
    simp [scanLit]
  · simp at h

theorem skipSpace_ws_cons (ws : Bytes) (d : Nat) (t : Bytes) (hws : skipSpace ws = [])
    (hd : isSpace d = false) : skipSpace (ws ++ d :: t) = d :: t := by
  rw [skipSpace_append_of_eq_nil ws _ hws, skipSpace_cons_of_not_space d t hd]

theorem localV_succ (n : Nat) (hE : LocalE n) (hM : LocalM n) : LocalV (n + 1) := by
  intro inp o r h
  cases inp with
  | nil => simp [scanValue] at h
  | cons c t =>
    rw [scanValue] at h
    by_cases h123 : c = 123
    · subst h123
      simp only [if_true] at h
      obtain ⟨ws, hws, hws'⟩ := skipSpace_split t
      cases hs : skipSpace t with
      | nil => simp [hs] at h
      | cons d t' =>
        rw [hs] at h hws
        have hd := skipSpace_head_not_space t d t' hs
        simp only at h
        by_cases h125 : d = 125
        · subst h125
          simp at h
          obtain ⟨h1, h2⟩ := h
          subst h1; subst h2
          refine ⟨123 :: ws ++ [125], by simp [hws], by simp, ?_⟩
          intro m rest hm _
          obtain ⟨m', rfl⟩ : ∃ m', m = m' + 1 := ⟨m - 1, by omega⟩
          have := skipSpace_ws_cons ws 125 rest hws' hd
          simp [scanValue, this]
        · simp only [h125, if_false] at h
          cases hm : scanMembers n (d :: t') with
          | none => simp [hm] at h
          | some p =>
            obtain ⟨o', r''⟩ := p
            simp [hm] at h
            obtain ⟨h1, h2⟩ := h
            subst h1; subst h2
            obtain ⟨cm, e1, e2, e3⟩ := hM _ _ _ hm
            cases cm with
            | nil => exact absurd rfl e2
            | cons x cm' =>
              simp at e1
              obtain ⟨ex, et⟩ := e1
              subst ex
              refine ⟨123 :: ws ++ d :: cm', by simp [hws, et], by simp, ?_⟩
              intro m rest hm _
              obtain ⟨m', rfl⟩ : ∃ m', m = m' + 1 := ⟨m - 1, by omega⟩
              have hsk := skipSpace_ws_cons ws d (cm' ++ rest) hws' hd
              have hmem := e3 m' rest (by simp at hm ⊢; omega)
              simp at hmem
              simp [scanValue, hsk, h125, hmem]
    · simp only [h123, if_false] at h
      by_cases h91 : c = 91
      · subst h91
        simp only [if_true] at h
        obtain ⟨ws, hws, hws'⟩ := skipSpace_split t
        cases hs : skipSpace t with
        | nil => simp [hs] at h
        | cons d t' =>
          rw [hs] at h hws
          have hd := skipSpace_head_not_space t d t' hs
          simp only at h
          by_cases h93 : d = 93
          · subst h93
            simp at h
            obtain ⟨h1, h2⟩ := h
            subst h1; subst h2
            refine ⟨91 :: ws ++ [93], by simp [hws], by simp, ?_⟩
            intro m rest hm _
            obtain ⟨m', rfl⟩ : ∃ m', m = m' + 1 := ⟨m - 1, by omega⟩
            have := skipSpace_ws_cons ws 93 rest hws' hd
            simp [scanValue, this]
          · simp only [h93, if_false] at h
            cases hm : scanElements n (d :: t') with
            | none => simp [hm] at h
            | some p =>
              obtain ⟨o', r''⟩ := p
              simp [hm] at h
              obtain ⟨h1, h2⟩ := h
              subst h1; subst h2
              obtain ⟨cm, e1, e2, e3⟩ := hE _ _ _ hm
              cases cm with
              | nil => exact absurd rfl e2
              | cons x cm' =>
                simp at e1
                obtain ⟨ex, et⟩ := e1
                subst ex
                refine ⟨91 :: ws ++ d :: cm', by simp [hws, et], by simp, ?_⟩
                intro m rest hm _
                obtain ⟨m', rfl⟩ : ∃ m', m = m' + 1 := ⟨m - 1, by omega⟩
                have hsk := skipSpace_ws_cons ws d (cm' ++ rest) hws' hd
                have hmem := e3 m' rest (by simp at hm ⊢; omega)
                simp at hmem
                simp [scanValue, hsk, h93, hmem]
      · simp only [h91, if_false] at h
        by_cases h34 : c = 34
        · subst h34
          simp only [if_true] at h
          cases hs : scanStr .body t with
          | none => simp [hs] at h
          | some p =>
            obtain ⟨raw, r'⟩ := p
            simp [hs] at h
            obtain ⟨h1, h2⟩ := h
            subst h1; subst h2
            obtain ⟨e1, e2⟩ := scanStr_local t _ _ _ hs
            refine ⟨34 :: raw ++ [34], by simp [e1], by simp, ?_⟩
            intro m rest hm _
            obtain ⟨m', rfl⟩ : ∃ m', m = m' + 1 := ⟨m - 1, by omega⟩
            simp [scanValue, e2 rest]
        · simp only [h34, if_false] at h
          by_cases h45 : c = 45
          · subst h45
            simp only [if_true] at h
            cases hs : scanNum .neg t with
            | none => simp [hs] at h
            | some p =>
              obtain ⟨l, r'⟩ := p
              simp [hs] at h
              obtain ⟨h1, h2⟩ := h
              subst h1; subst h2
              obtain ⟨e1, e2⟩ := scanNum_local t _ _ _ hs
              refine ⟨45 :: l, by simp [e1], by simp, ?_⟩
              intro m rest hm hrest
              obtain ⟨m', rfl⟩ : ∃ m', m = m' + 1 := ⟨m - 1, by omega⟩
              simp [scanValue, e2 rest hrest]
          · simp only [h45, if_false] at h
            by_cases h48 : c = 48
            · subst h48
              simp only [if_true] at h
              cases hs : scanNum .zero t with
              | none => simp [hs] at h
              | some p =>
                obtain ⟨l, r'⟩ := p
                simp [hs] at h
                obtain ⟨h1, h2⟩ := h
                subst h1; subst h2
                obtain ⟨e1, e2⟩ := scanNum_local t _ _ _ hs
                refine ⟨48 :: l, by simp [e1], by simp, ?_⟩
                intro m rest hm hrest
                obtain ⟨m', rfl⟩ : ∃ m', m = m' + 1 := ⟨m - 1, by omega⟩
                simp [scanValue, e2 rest hrest]
            · simp only [h48, if_false] at h
              by_cases hdig : isDigit c = true
              · simp only [hdig, if_true] at h
                cases hs : scanNum .int t with
                | none => simp [hs] at h
                | some p =>
                  obtain ⟨l, r'⟩ := p
                  simp [hs] at h
                  obtain ⟨h1, h2⟩ := h
                  subst h1; subst h2
                  obtain ⟨e1, e2⟩ := scanNum_local t _ _ _ hs
                  refine ⟨c :: l, by simp [e1], by simp, ?_⟩
                  intro m rest hm hrest
                  obtain ⟨m', rfl⟩ : ∃ m', m = m' + 1 := ⟨m - 1, by omega⟩
                  simp [scanValue, e2 rest hrest, h123, h91, h34, h45, h48, hdig]
              · simp only [hdig, if_false] at h
                by_cases h116 : c = 116
                · subst h116
                  simp only [if_true] at h
                  obtain ⟨e0, e1, e2⟩ := scanLit_local _ _ _ _ h
                  subst e0
                  refine ⟨[116, 114, 117, 101], by simpa using e1, by simp, ?_⟩
                  intro m rest hm _
                  obtain ⟨m', rfl⟩ : ∃ m', m = m' + 1 := ⟨m - 1, by omega⟩
                  have := e2 rest
                  simp at this
                  simp [scanValue, isDigit, this]
                · simp only [h116, if_false] at h
                  by_cases h102 : c = 102
                  · subst h102
                    simp only [if_true] at h
                    obtain ⟨e0, e1, e2⟩ := scanLit_local _ _ _ _ h
                    subst e0
                    refine ⟨[102, 97, 108, 115, 101], by simpa using e1, by simp, ?_⟩
                    intro m rest hm _
                    obtain ⟨m', rfl⟩ : ∃ m', m = m' + 1 := ⟨m - 1, by omega⟩
                    have := e2 rest
                    simp at this
                    simp [scanValue, isDigit, this]
                  · simp only [h102, if_false] at h
                    by_cases h110 : c = 110
                    · subst h110
                      simp only [if_true] at h
                      obtain ⟨e0, e1, e2⟩ := scanLit_local _ _ _ _ h
                      subst e0
                      refine ⟨[110, 117, 108, 108], by simpa using e1, by simp, ?_⟩
                      intro m rest hm _
                      obtain ⟨m', rfl⟩ : ∃ m', m = m' + 1 := ⟨m - 1, by omega⟩
                      have := e2 rest
                      simp at this
                      simp [scanValue, isDigit, this]
                    · simp [h110] at h

theorem localE_succ (n : Nat) (hV : LocalV n) (hE : LocalE n) : LocalE (n + 1) := by
  intro inp o r h
  rw [scanElements] at h
  cases hv : scanValue n inp with
  | none => simp [hv] at h
  | some p =>
    obtain ⟨ov, r1⟩ := p
    simp only [hv] at h
    obtain ⟨cv, ev1, ev2, ev3⟩ := hV _ _ _ hv
    obtain ⟨ws, hws, hws'⟩ := skipSpace_split r1
    cases hs : skipSpace r1 with
    | nil => simp [hs] at h
    | cons d r2 =>
      rw [hs] at h hws
      have hd := skipSpace_head_not_space r1 d r2 hs
      simp only at h
      by_cases h44 : d = 44
      · subst h44
        simp only [if_true] at h
        cases he : scanElements n (skipSpace r2) with
        | none => simp [he] at h
        | some p =>
          obtain ⟨oe, r3⟩ := p
          simp [he] at h
          obtain ⟨h1, h2⟩ := h
          subst h1; subst h2
          obtain ⟨ce, ee1, ee2, ee3⟩ := hE _ _ _ he
          obtain ⟨ws2, hws2, hws2'⟩ := skipSpace_split r2
          cases ce with
          | nil => exact absurd rfl ee2
          | cons x ce' =>
            have hx : isSpace x = false :=
              skipSpace_head_not_space r2 x (ce' ++ r3) (by simpa using ee1)
            refine ⟨cv ++ (ws ++ 44 :: (ws2 ++ x :: ce')), ?_, by simp [ev2], ?_⟩
            · rw [ev1, hws, hws2, ee1]; simp
            · intro m rest hm
              obtain ⟨m', rfl⟩ : ∃ m', m = m' + 1 := ⟨m - 1, by omega⟩
              simp only [List.length_append, List.length_cons] at hm
              have hsk1 : skipSpace (ws ++ 44 :: (ws2 ++ x :: (ce' ++ rest)))
                  = 44 :: (ws2 ++ x :: (ce' ++ rest)) := skipSpace_ws_cons ws 44 _ hws' hd
              have hsk2 : skipSpace (ws2 ++ x :: (ce' ++ rest)) = x :: (ce' ++ rest) :=
                skipSpace_ws_cons ws2 x _ hws2' hx
              have hstop := numStop_of_skipSpace _ 44 _ hsk1 (Or.inl rfl)
              have hval := ev3 m' _ (by omega) hstop
              have hel := ee3 m' rest (by simp only [List.length_cons]; omega)
              simp only [List.cons_append] at hel
              have hshape : (cv ++ (ws ++ 44 :: (ws2 ++ x :: ce'))) ++ rest
                  = cv ++ (ws ++ 44 :: (ws2 ++ x :: (ce' ++ rest))) := by simp
              rw [hshape, scanElements, hval]
              simp only [hsk1, if_true, hsk2, hel]
      · simp only [h44, if_false] at h
        by_cases h93 : d = 93
        · subst h93
          simp at h
          obtain ⟨h1, h2⟩ := h
          subst h1; subst h2
          refine ⟨cv ++ (ws ++ [93]), ?_, by simp [ev2], ?_⟩
          · rw [ev1, hws]; simp
          · intro m rest hm
            obtain ⟨m', rfl⟩ : ∃ m', m = m' + 1 := ⟨m - 1, by omega⟩
            simp only [List.length_append, List.length_cons] at hm
            have hsk1 : skipSpace (ws ++ 93 :: rest) = 93 :: rest :=
              skipSpace_ws_cons ws 93 _ hws' hd
            have hstop := numStop_of_skipSpace _ 93 _ hsk1 (Or.inr (Or.inl rfl))
            have hval := ev3 m' _ (by omega) hstop
            have hshape : (cv ++ (ws ++ [93])) ++ rest = cv ++ (ws ++ 93 :: rest) := by simp
            rw [hshape, scanElements, hval]
            simp [hsk1]
        · simp [h93] at h

theorem localM_succ (n : Nat) (hV : LocalV n) (hM : LocalM n) : LocalM (n + 1) := by
  intro inp o r h
  cases inp with
  | nil => simp [scanMembers] at h
  | cons c t =>
    rw [scanMembers] at h
    by_cases h34 : c = 34
    · subst h34
      simp only [if_true] at h
      cases hk : scanStr .body t with
      | none => simp [hk] at h
      | some p =>
        obtain ⟨k, r1⟩ := p
        simp only [hk] at h
        obtain ⟨ek1, ek2⟩ := scanStr_local t _ _ _ hk
        obtain ⟨ws1, hws1, hws1'⟩ := skipSpace_split r1
        cases hs1 : skipSpace r1 with
        | nil => simp [hs1] at h
        | cons d r2 =>
          rw [hs1] at h hws1
          have hd := skipSpace_head_not_space r1 d r2 hs1
          simp only at h
          by_cases h58 : d = 58
          · subst h58
            simp only [if_true] at h
            obtain ⟨ws2, hws2, hws2'⟩ := skipSpace_split r2
            cases hv : scanValue n (skipSpace r2) with
            | none => simp [hv] at h
            | some p =>
              obtain ⟨ov, r3⟩ := p
              simp only [hv] at h
              obtain ⟨cv, ev1, ev2, ev3⟩ := hV _ _ _ hv
              cases cv with
              | nil => exact absurd rfl ev2
              | cons y cv' =>
                have hy : isSpace y = false :=
                  skipSpace_head_not_space r2 y (cv' ++ r3) (by simpa using ev1)
                obtain ⟨ws3, hws3, hws3'⟩ := skipSpace_split r3
                cases hs3 : skipSpace r3 with
                | nil => simp [hs3] at h
                | cons e r4 =>
                  rw [hs3] at h hws3
                  have he := skipSpace_head_not_space r3 e r4 hs3
                  simp only at h
                  by_cases h44 : e = 44
                  · subst h44
                    simp only [if_true] at h
                    cases hm : scanMembers n (skipSpace r4) with
                    | none => simp [hm] at h
                    | some p =>
                      obtain ⟨om, r5⟩ := p
                      simp [hm] at h
                      obtain ⟨h1, h2⟩ := h
                      subst h1; subst h2
                      obtain ⟨cm, em1, em2, em3⟩ := hM _ _ _ hm
                      obtain ⟨ws4, hws4, hws4'⟩ := skipSpace_split r4
                      cases cm with
                      | nil => exact absurd rfl em2
                      | cons x cm' =>
                        have hx : isSpace x = false :=
                          skipSpace_head_not_space r4 x (cm' ++ r5) (by simpa using em1)
                        refine ⟨34 :: (k ++ 34 :: (ws1 ++ 58 :: (ws2 ++ (y :: cv' ++
                          (ws3 ++ 44 :: (ws4 ++ x :: cm')))))), ?_, by simp, ?_⟩
                        · rw [ek1, hws1, hws2, ev1, hws3, hws4, em1]; simp
                        · intro m rest hm'
                          obtain ⟨m', rfl⟩ : ∃ m', m = m' + 1 := ⟨m - 1, by omega⟩
                          simp only [List.length_append, List.length_cons] at hm'
                          have hsk1 := skipSpace_ws_cons ws1 58 (ws2 ++ (y :: cv' ++
                            (ws3 ++ 44 :: (ws4 ++ x :: (cm' ++ rest))))) hws1' hd
                          have hsk2 := skipSpace_ws_cons ws2 y (cv' ++
                            (ws3 ++ 44 :: (ws4 ++ x :: (cm' ++ rest)))) hws2' hy
                          have hsk3 := skipSpace_ws_cons ws3 44
                            (ws4 ++ x :: (cm' ++ rest)) hws3' he
                          have hsk4 := skipSpace_ws_cons ws4 x (cm' ++ rest) hws4' hx
                          have hstop := numStop_of_skipSpace _ 44 _ hsk3 (Or.inl rfl)
                          have hval := ev3 m' _ (by simp only [List.length_cons]; omega) hstop
                          have hmem := em3 m' rest (by simp only [List.length_cons]; omega)
                          simp only [List.cons_append] at hmem hval hsk1
                          have hshape : (34 :: (k ++ 34 :: (ws1 ++ 58 :: (ws2 ++ (y :: cv' ++
                              (ws3 ++ 44 :: (ws4 ++ x :: cm'))))))) ++ rest
                              = 34 :: (k ++ 34 :: (ws1 ++ 58 :: (ws2 ++ y :: (cv' ++
                                (ws3 ++ 44 :: (ws4 ++ x :: (cm' ++ rest))))))) := by simp
                          rw [hshape, scanMembers]
                          simp [ek2, hsk1, hsk2, hval, hsk3, hsk4, hmem]
                  · simp only [h44, if_false] at h
                    by_cases h125 : e = 125
                    · subst h125
                      simp at h
                      obtain ⟨h1, h2⟩ := h
                      subst h1; subst h2
                      refine ⟨34 :: (k ++ 34 :: (ws1 ++ 58 :: (ws2 ++ (y :: cv' ++
                        (ws3 ++ [125]))))), ?_, by simp, ?_⟩
                      · rw [ek1, hws1, hws2, ev1, hws3]; simp
                      · intro m rest hm'
                        obtain ⟨m', rfl⟩ : ∃ m', m = m' + 1 := ⟨m - 1, by omega⟩
                        simp only [List.length_append, List.length_cons] at hm'
                        have hsk1 := skipSpace_ws_cons ws1 58 (ws2 ++ (y :: cv' ++
                          (ws3 ++ 125 :: rest))) hws1' hd
                        have hsk2 := skipSpace_ws_cons ws2 y (cv' ++
                          (ws3 ++ 125 :: rest)) hws2' hy
                        have hsk3 := skipSpace_ws_cons ws3 125 rest hws3' he
                        have hstop := numStop_of_skipSpace _ 125 _ hsk3 (Or.inr (Or.inr rfl))
                        have hval := ev3 m' _ (by simp only [List.length_cons]; omega) hstop
                        simp only [List.cons_append] at hval hsk1
                        have hshape : (34 :: (k ++ 34 :: (ws1 ++ 58 :: (ws2 ++ (y :: cv' ++
                            (ws3 ++ [125])))))) ++ rest
                            = 34 :: (k ++ 34 :: (ws1 ++ 58 :: (ws2 ++ y :: (cv' ++
                              (ws3 ++ 125 :: rest))))) := by simp
                        rw [hshape, scanMembers]
                        simp [ek2, hsk1, hsk2, hval, hsk3]
                    · simp [h125] at h
          · simp [h58] at h
    · simp [h34] at h

/-- The three scanners are local at every recursion bound. -/
theorem scan_local (n : Nat) : LocalV n ∧ LocalE n ∧ LocalM n := by
  induction n with
  | zero =>
    refine ⟨?_, ?_, ?_⟩
    · intro inp o r h; cases inp <;> simp [scanValue] at h
    · intro inp o r h; simp [scanElements] at h
    · intro inp o r h; cases inp <;> simp [scanMembers] at h
  | succ n ih =>
    obtain ⟨hV, hE, hM⟩ := ih
    exact ⟨localV_succ n hE hM, localE_succ n hV hE, localM_succ n hV hM⟩

theorem numStop_of_skipSpace_nil (r : Bytes) (h : skipSpace r = []) : numStop r = true := by
  cases r with
  | nil => rfl
  | cons d t =>
    by_cases hd : isSpace d = true
    · simp only [isSpace, Bool.or_eq_true, decide_eq_true_eq] at hd
      rcases hd with ((hd | hd) | hd) | hd <;> subst hd <;> rfl
    · simp [skipSpace, hd] at h

theorem skipSpace_length_le (a : Bytes) : (skipSpace a).length ≤ a.length := by
  induction a with
  | nil => simp [skipSpace]
  | cons c r ih =>
    by_cases hc : isSpace c = true
    · simp only [skipSpace, hc, if_true, List.length_cons]; omega
    · simp [skipSpace, hc]

/-- What an accepted document consists of: white space, the text of one
value, white space. -/
theorem valueSlice_spec (data v : Bytes) (h : valueSlice data = some v) :
    ∃ ws o r, data = ws ++ (v ++ r) ∧ skipSpace ws = [] ∧ skipSpace r = [] ∧ ReadsAs v o
      ∧ compact data = some o := by
  unfold valueSlice at h
  cases hs : scanValue (data.length + 1) (skipSpace data) with
  | none => simp [hs] at h
  | some p =>
    obtain ⟨o, r⟩ := p
    simp only [hs] at h
    by_cases hr : skipSpace r = []
    · simp only [hr, if_true] at h
      obtain ⟨c, e1, e2, e3⟩ := (scan_local _).1 _ _ _ hs
      obtain ⟨ws, hws, hws'⟩ := skipSpace_split data
      have hv : v = c := by
        simp at h
        rw [← h, e1]
        simp
      subst hv
      refine ⟨ws, o, r, by rw [← e1]; exact hws, hws', hr, ⟨e2, ?_, e3⟩, ?_⟩
      · cases v with
        | nil => exact absurd rfl e2
        | cons x t =>
          exact skipSpace_cons_of_not_space x t
            (skipSpace_head_not_space data x (t ++ r) (by simpa using e1))
      · simp [compact, hs, hr]
    · simp [hr] at h

/-- A value's text between white space is an accepted document, its value
slice is the text and its compact form the value's. -/
theorem valueSlice_of_readsAs (ws v o r : Bytes) (hws : skipSpace ws = [])
    (hr : skipSpace r = []) (hv : ReadsAs v o) :
    valueSlice (ws ++ (v ++ r)) = some v ∧ compact (ws ++ (v ++ r)) = some o := by
  obtain ⟨h1, h2, h3⟩ := hv
  have hsk : skipSpace (ws ++ (v ++ r)) = v ++ r := by
    rw [skipSpace_append_of_eq_nil ws _ hws, skipSpace_append_of_ne_nil v r (by rw [h2]; exact h1),
      h2]
  have hscan := h3 ((ws ++ (v ++ r)).length + 1) r (by simp; omega)
    (numStop_of_skipSpace_nil r hr)
  constructor
  · unfold valueSlice
    rw [hsk, hscan]
    simp [hr]
  · unfold compact
    rw [hsk, hscan]
    simp [hr]

/-- The value slice of an accepted document is an accepted document and its
own value slice. -/
theorem valueSlice_idem (data v : Bytes) (h : valueSlice data = some v) :
    valueSlice v = some v := by
  obtain ⟨ws, o, r, -, -, -, hv, -⟩ := valueSlice_spec data v h
  have := (valueSlice_of_readsAs [] v o [] rfl rfl hv).1
  simpa using this

theorem take_consumed (v x : Bytes) : (v ++ x).take ((v ++ x).length - x.length) = v := by
  simp

theorem skipSpace_before_value (ws v x : Bytes) (hws : skipSpace ws = []) (hv : v ≠ [])
    (hv' : skipSpace v = v) : skipSpace (ws ++ (v ++ x)) = v ++ x := by
  rw [skipSpace_append_of_eq_nil ws _ hws, skipSpace_append_of_ne_nil v x (by rw [hv']; exact hv),
    hv']

/-- The last member of the object `MarshalJSON` writes, read back: the key
`value` and the text of its value. -/
theorem members_value (ws v o r : Bytes) (hws : skipSpace ws = []) (hr : skipSpace r = [])
    (hv : ReadsAs v o) (m : Nat) (rest : Bytes) (hm : v.length + 1 < m) :
    scanMembers m (34 :: 118 :: 97 :: 108 :: 117 :: 101 :: 34 :: 58 ::
        (ws ++ (v ++ (r ++ 125 :: rest))))
      = some (34 :: 118 :: 97 :: 108 :: 117 :: 101 :: 34 :: 58 :: (o ++ [125]), rest)
    ∧ objectMembers m (34 :: 118 :: 97 :: 108 :: 117 :: 101 :: 34 :: 58 ::
        (ws ++ (v ++ (r ++ 125 :: rest))))
      = some [([118, 97, 108, 117, 101], v)] := by
  obtain ⟨h1, h2, h3⟩ := hv
  obtain ⟨m', rfl⟩ : ∃ m', m = m' + 1 := ⟨m - 1, by omega⟩
  have hkey : ∀ x, scanStr .body (118 :: 97 :: 108 :: 117 :: 101 :: 34 :: x)
      = some ([118, 97, 108, 117, 101], x) := by
    intro x; simp [scanStr]
  have hsk0 : ∀ x, skipSpace (58 :: x) = 58 :: x := fun x =>
    skipSpace_cons_of_not_space 58 x rfl
  have hsk1 := skipSpace_before_value ws v (r ++ 125 :: rest) hws h1 h2
  have hsk2 : skipSpace (r ++ 125 :: rest) = 125 :: rest := skipSpace_ws_cons r 125 rest hr rfl
  have hval := h3 m' (r ++ 125 :: rest) (by omega)
    (numStop_of_skipSpace _ 125 _ hsk2 (Or.inr (Or.inr rfl)))
  have hesc : escapeHTML [118, 97, 108, 117, 101] = [118, 97, 108, 117, 101] := by decide
  constructor
  · rw [scanMembers]
    simp [hkey, hsk0, hsk1, hval, hsk2, hesc]
  · rw [objectMembers]
    simp only [if_true, hkey, hsk0, hsk1, hval, hsk2, take_consumed]
    simp

theorem objText_eq (a b : Bytes) :
    utf8 "\x7b\"key\":" ++ a ++ utf8 ",\"value\":" ++ b ++ utf8 "\x7d" = objText a b [] := by
  have h1 : utf8 "\x7b\"key\":" = [123, 34, 107, 101, 121, 34, 58] := by decide
  have h2 : utf8 ",\"value\":" = [44, 34, 118, 97, 108, 117, 101, 34, 58] := by decide
  have h3 : utf8 "\x7d" = [125] := by decide
  rw [h1, h2, h3]
  simp [objText]

theorem objText_append (a b rest : Bytes) : objText a b [] ++ rest = objText a b rest := by
  simp [objText]

theorem objText_length (a b tail : Bytes) :
    (objText a b tail).length = a.length + b.length + tail.length + 17 := by
  simp [objText]; omega

/-- The members of the object `MarshalJSON` writes, read back: the two keys
and the texts of their values, and the compact form of the whole. -/
theorem members_key_value (wsf vf of rf wss vs os rs : Bytes)
    (hwsf : skipSpace wsf = []) (hrf : skipSpace rf = []) (hvf : ReadsAs vf of)
    (hwss : skipSpace wss = []) (hrs : skipSpace rs = []) (hvs : ReadsAs vs os)
    (m : Nat) (rest : Bytes) (hm : vf.length + vs.length + 2 < m) :
    scanMembers m (34 :: 107 :: 101 :: 121 :: 34 :: 58 :: (wsf ++ (vf ++ (rf ++
        44 :: 34 :: 118 :: 97 :: 108 :: 117 :: 101 :: 34 :: 58 ::
          (wss ++ (vs ++ (rs ++ 125 :: rest)))))))
      = some (34 :: 107 :: 101 :: 121 :: 34 :: 58 :: (of ++
          44 :: 34 :: 118 :: 97 :: 108 :: 117 :: 101 :: 34 :: 58 :: (os ++ [125])), rest)
    ∧ objectMembers m (34 :: 107 :: 101 :: 121 :: 34 :: 58 :: (wsf ++ (vf ++ (rf ++
        44 :: 34 :: 118 :: 97 :: 108 :: 117 :: 101 :: 34 :: 58 ::
          (wss ++ (vs ++ (rs ++ 125 :: rest)))))))
      = some [([107, 101, 121], vf), ([118, 97, 108, 117, 101], vs)] := by
  obtain ⟨h1, h2, h3⟩ := hvf
  obtain ⟨m', rfl⟩ : ∃ m', m = m' + 1 := ⟨m - 1, by omega⟩
  obtain ⟨hA, hB⟩ := members_value wss vs os rs hwss hrs hvs m' rest (by omega)
  have hkey : ∀ x, scanStr .body (107 :: 101 :: 121 :: 34 :: x) = some ([107, 101, 121], x) := by
    intro x; simp [scanStr]
  have hsk0 : ∀ x, skipSpace (58 :: x) = 58 :: x := fun x =>
    skipSpace_cons_of_not_space 58 x rfl
  have hsk3 : ∀ x, skipSpace (34 :: x) = 34 :: x := fun x =>
    skipSpace_cons_of_not_space 34 x rfl
  have hsk1 := skipSpace_before_value wsf vf (rf ++ 44 :: 34 :: 118 :: 97 :: 108 :: 117 ::
    101 :: 34 :: 58 :: (wss ++ (vs ++ (rs ++ 125 :: rest)))) hwsf h1 h2
  have hsk2 : skipSpace (rf ++ 44 :: 34 :: 118 :: 97 :: 108 :: 117 ::
      101 :: 34 :: 58 :: (wss ++ (vs ++ (rs ++ 125 :: rest))))
      = 44 :: 34 :: 118 :: 97 :: 108 :: 117 ::
      101 :: 34 :: 58 :: (wss ++ (vs ++ (rs ++ 125 :: rest))) :=
    skipSpace_ws_cons rf 44 _ hrf rfl
  have hval := h3 m' _ (by omega) (numStop_of_skipSpace _ 44 _ hsk2 (Or.inl rfl))
  have hesc : escapeHTML [107, 101, 121] = [107, 101, 121] := by decide
  constructor
  · rw [scanMembers]
    simp only [if_true, hkey, hsk0, hsk1, hval, hsk2, hsk3, hA, hesc]
    simp
  · rw [objectMembers]
    simp only [if_true, hkey, hsk0, hsk1, hval, hsk2, hsk3, hB, take_consumed]

/-- The object `MarshalJSON` writes is the text of one value, and its
compact form is the object of the compact forms of its two values. -/
theorem objText_readsAs (wsf vf of rf wss vs os rs : Bytes)
    (hwsf : skipSpace wsf = []) (hrf : skipSpace rf = []) (hvf : ReadsAs vf of)
    (hwss : skipSpace wss = []) (hrs : skipSpace rs = []) (hvs : ReadsAs vs os) :
    ReadsAs (objText (wsf ++ (vf ++ rf)) (wss ++ (vs ++ rs)) []) (objText of os []) := by
  refine ⟨by simp [objText], by simp [objText, skipSpace, isSpace], ?_⟩
  intro m rest hm _
  rw [objText_length] at hm
  simp only [List.length_append] at hm
  obtain ⟨m', rfl⟩ : ∃ m', m = m' + 1 := ⟨m - 1, by omega⟩
  obtain ⟨hA, -⟩ := members_key_value wsf vf of rf wss vs os rs hwsf hrf hvf hwss hrs hvs
    m' rest (by omega)
  have hsk3 : ∀ x, skipSpace (34 :: x) = 34 :: x := fun x =>
    skipSpace_cons_of_not_space 34 x rfl
  rw [objText_append]
  simp only [objText, List.append_assoc, List.cons_append]
  rw [scanValue]
  simp only [if_true, hsk3, hA]
  simp

theorem readsAs_of_canonical (e : Bytes) (h : Canonical e) : ReadsAs e e := by
  obtain ⟨h1, h2⟩ := h
  obtain ⟨ws, o, r, -, -, -, hv, hc⟩ := valueSlice_spec e e h1
  rw [h2] at hc
  simp at hc
  subst hc
  exact hv

theorem unmarshalJSON_error {F S : Type} (cf : Codec F) (cs : Codec S) (p : Pair F S)
    (data : Bytes) (h : (p.UnmarshalJSON cf cs data).2 ≠ none) :
    (p.UnmarshalJSON cf cs data).1 = p := by
  unfold Pair.UnmarshalJSON at h ⊢
  cases hu : unmarshalJsonValue cf cs data with
  | mk jv err =>
    cases err with
    | none => simp [hu] at h
    | some e => simp

theorem unmarshalJSON_ok {F S : Type} (cf : Codec F) (cs : Codec S) (p : Pair F S)
    (data : Bytes) (h : (p.UnmarshalJSON cf cs data).2 = none) :
    (unmarshalJsonValue cf cs data).2 = none ∧
      (p.UnmarshalJSON cf cs data).1
        = { f := (unmarshalJsonValue cf cs data).1.Key,
            s := (unmarshalJsonValue cf cs data).1.Value } := by
  unfold Pair.UnmarshalJSON at h ⊢
  cases hu : unmarshalJsonValue cf cs data with
  | mk jv err =>
    cases err with
    | none => simp
    | some e => simp [hu] at h

theorem unmarshalJSON_error_eq {F S : Type} (cf : Codec F) (cs : Codec S) (p : Pair F S)
    (data : Bytes) : (p.UnmarshalJSON cf cs data).2 = (unmarshalJsonValue cf cs data).2 := by
  unfold Pair.UnmarshalJSON
  cases hu : unmarshalJsonValue cf cs data with
  | mk jv err => cases err <;> simp

/-- On the value slice of a document `json.Unmarshal` decodes what it decodes
on the document. -/
theorem unmarshalJsonValue_slice {F S : Type} (cf : Codec F) (cs : Codec S) (data v : Bytes)
    (h : valueSlice data = some v) :
    unmarshalJsonValue cf cs v = (unmarshalJsonValue cf cs data : jsonValue F S × Option Error) := by
  unfold unmarshalJsonValue
  rw [h, valueSlice_idem data v h]

/-- `json.Unmarshal(b, p)` on a `*Pair` does what `p.UnmarshalJSON(b)` does. -/
theorem jsonUnmarshalPair_eq {F S : Type} (cf : Codec F) (cs : Codec S) (p : Pair F S)
    (b : Bytes) : jsonUnmarshalPair cf cs b p = p.UnmarshalJSON cf cs b := by
  unfold jsonUnmarshalPair
  cases h : valueSlice b with
  | none => simp [Pair.UnmarshalJSON, unmarshalJsonValue, h]
  | some v =>
    simp only
    unfold Pair.UnmarshalJSON
    rw [unmarshalJsonValue_slice cf cs b v h]

/-- The recursion bound `valueSlice` passes is enough: a document whose value
the scanner reads with some bound is accepted. -/
theorem valueSlice_of_scanValue (data o r : Bytes) (n : Nat)
    (h : scanValue n (skipSpace data) = some (o, r)) (hr : skipSpace r = []) :
    ∃ v, valueSlice data = some v ∧ compact data = some o := by
  obtain ⟨c, e1, e2, e3⟩ := (scan_local n).1 _ _ _ h
  have hlen : c.length ≤ data.length := by
    have h1 := skipSpace_length_le data
    rw [e1] at h1
    simp only [List.length_append] at h1
    omega
  have hscan := e3 (data.length + 1) r (by omega) (numStop_of_skipSpace_nil r hr)
  rw [← e1] at hscan
  refine ⟨(skipSpace data).take ((skipSpace data).length - r.length), ?_, ?_⟩
  · unfold valueSlice
    rw [hscan]
    simp [hr]
  · unfold compact
    rw [hscan]
    simp [hr]

/-! ## The claims -/

/-- C4. Accessor law: for every `f` and `s`, `Of(f, s).First()` is `f` and
`Of(f, s).Second()` is `s`. -/
theorem C4_accessor_law {F S : Type} (f : F) (s : S) :
    (Of f s).First = f ∧ (Of f s).Second = s :=
  ⟨rfl, rfl⟩

/-- C8. `Scan(nil)` is a successful no-op: for every pair `p`, whatever it
holds, `Scan(nil)` returns no error and leaves `First` and `Second` as they
were. -/
theorem C8_scan_nil_noop {F S : Type} (cf : Codec F) (cs : Codec S) (p : Pair F S) :
    (p.Scan cf cs .nil).2 = none ∧
      (p.Scan cf cs .nil).1.First = p.First ∧ (p.Scan cf cs .nil).1.Second = p.Second :=
  ⟨rfl, rfl, rfl⟩

/-- C7. Unsupported `Scan` source: for every pair `p` and every source that
is not nil, not a `[]byte` and not a `string`, `Scan` returns the error with
the message "pair: unexpected source data type: " followed by the name of
the source's type and leaves the fields of `p` unchanged; for the int 123
the message ends in `int`. -/
theorem C7_scan_unsupported_source {F S : Type} (cf : Codec F) (cs : Codec S)
    (p : Pair F S) (typeName : String) :
    (p.Scan cf cs (.other typeName)).2
        = some (.errorf ("pair: unexpected source data type: " ++ typeName)) ∧
      (p.Scan cf cs (.other typeName)).1.First = p.First ∧
      (p.Scan cf cs (.other typeName)).1.Second = p.Second ∧
      ((Of (0 : Int) ([] : Bytes)).Scan intCodec stringCodec (.other "int")
        = (Of 0 [], some (.errorf "pair: unexpected source data type: int"))) :=
  ⟨rfl, rfl, rfl, by decide⟩

/-- C2. Decode atomicity: for every pair `p` and every input, if
`UnmarshalJSON(data)` or `Scan(src)` returns an error, `First` and `Second`
of `p` after the call are what they were before it; the input
`{"key":1,"value":2}`, whose key decodes and whose value does not, leaves a
`Pair[int,string]` holding 7 and "x" as it was. -/
theorem C2_decode_atomic {F S : Type} (cf : Codec F) (cs : Codec S) (p : Pair F S) :
    (∀ data, (p.UnmarshalJSON cf cs data).2 ≠ none →
      (p.UnmarshalJSON cf cs data).1.First = p.First ∧
        (p.UnmarshalJSON cf cs data).1.Second = p.Second) ∧
    (∀ src, (p.Scan cf cs src).2 ≠ none →
      (p.Scan cf cs src).1.First = p.First ∧ (p.Scan cf cs src).1.Second = p.Second) ∧
    ((Of (7 : Int) (utf8 "x")).UnmarshalJSON intCodec stringCodec
        (utf8 "\x7b\"key\":1,\"value\":2\x7d")
      = (Of 7 (utf8 "x"), some (.unmarshalType "number"))) := by
  refine ⟨?_, ?_, by decide⟩
  · intro data h
    rw [unmarshalJSON_error cf cs p data h]
    exact ⟨rfl, rfl⟩
  · intro src h
    cases src with
    | nil => exact ⟨rfl, rfl⟩
    | other typeName => exact ⟨rfl, rfl⟩
    | bytes t =>
      have e : p.Scan cf cs (.bytes t) = p.UnmarshalJSON cf cs t := jsonUnmarshalPair_eq cf cs p t
      rw [e] at h ⊢
      rw [unmarshalJSON_error cf cs p t h]
      exact ⟨rfl, rfl⟩
    | string t =>
      have e : p.Scan cf cs (.string t) = p.UnmarshalJSON cf cs t := jsonUnmarshalPair_eq cf cs p t
      rw [e] at h ⊢
      rw [unmarshalJSON_error cf cs p t h]
      exact ⟨rfl, rfl⟩

/-- C2 at a `Pair[int,string]` holding 7 and "x": `UnmarshalJSON` and `Scan`
of `{"key":1,"value":2}` both fail and both leave 7 and "x". -/
theorem C2_decode_atomic_witness :
    ((Of (7 : Int) (utf8 "x")).UnmarshalJSON intCodec stringCodec
        (utf8 "\x7b\"key\":1,\"value\":2\x7d")).2 ≠ none ∧
    ((Of (7 : Int) (utf8 "x")).Scan intCodec stringCodec
        (.string (utf8 "\x7b\"key\":1,\"value\":2\x7d"))).2 ≠ none ∧
    (((Of (7 : Int) (utf8 "x")).UnmarshalJSON intCodec stringCodec
        (utf8 "\x7b\"key\":1,\"value\":2\x7d")).1.First = (Of (7 : Int) (utf8 "x")).First ∧
      ((Of (7 : Int) (utf8 "x")).UnmarshalJSON intCodec stringCodec
        (utf8 "\x7b\"key\":1,\"value\":2\x7d")).1.Second = (Of (7 : Int) (utf8 "x")).Second) ∧
    (((Of (7 : Int) (utf8 "x")).Scan intCodec stringCodec
        (.string (utf8 "\x7b\"key\":1,\"value\":2\x7d"))).1.First = (Of (7 : Int) (utf8 "x")).First ∧
      ((Of (7 : Int) (utf8 "x")).Scan intCodec stringCodec
        (.string (utf8 "\x7b\"key\":1,\"value\":2\x7d"))).1.Second
          = (Of (7 : Int) (utf8 "x")).Second) :=
  ⟨by decide, by decide,
    (C2_decode_atomic intCodec stringCodec (Of 7 (utf8 "x"))).1 _ (by decide),
    (C2_decode_atomic intCodec stringCodec (Of 7 (utf8 "x"))).2.1 _ (by decide)⟩

/-- C10. A successful decode is a full replacement: for every input and any
two pairs `p` and `q` of one type, `UnmarshalJSON(data)` succeeds on `p`
exactly when it succeeds on `q`, and on success `p` and `q` end with the same
`First` and `Second`, which are the fields `json.Unmarshal` decodes from
`data` into a fresh `jsonValue`. -/
theorem C10_decode_full_replacement {F S : Type} (cf : Codec F) (cs : Codec S)
    (p q : Pair F S) (data : Bytes) :
    ((p.UnmarshalJSON cf cs data).2 = none ↔ (q.UnmarshalJSON cf cs data).2 = none) ∧
    ((p.UnmarshalJSON cf cs data).2 = none →
      (p.UnmarshalJSON cf cs data).1.First = (q.UnmarshalJSON cf cs data).1.First ∧
      (p.UnmarshalJSON cf cs data).1.Second = (q.UnmarshalJSON cf cs data).1.Second ∧
      (p.UnmarshalJSON cf cs data).1.First = (unmarshalJsonValue cf cs data).1.Key ∧
      (p.UnmarshalJSON cf cs data).1.Second = (unmarshalJsonValue cf cs data).1.Value) := by
  have hpq : (p.UnmarshalJSON cf cs data).2 = (q.UnmarshalJSON cf cs data).2 := by
    rw [unmarshalJSON_error_eq, unmarshalJSON_error_eq]
  refine ⟨by rw [hpq], ?_⟩
  intro h
  have hq : (q.UnmarshalJSON cf cs data).2 = none := by rw [← hpq]; exact h
  rw [(unmarshalJSON_ok cf cs p data h).2, (unmarshalJSON_ok cf cs q data hq).2]
  exact ⟨rfl, rfl, rfl, rfl⟩

/-- C10 at two `Pair[int,string]`, one holding 7 and "x", one the zero
values: `{"key":42,"value":"hello"}` decodes into both and both end with 42
and "hello". -/
theorem C10_decode_full_replacement_witness :
    ((Of (7 : Int) (utf8 "x")).UnmarshalJSON intCodec stringCodec
        (utf8 "\x7b\"key\":42,\"value\":\"hello\"\x7d")).2 = none ∧
    ((Of (7 : Int) (utf8 "x")).UnmarshalJSON intCodec stringCodec
        (utf8 "\x7b\"key\":42,\"value\":\"hello\"\x7d")).1.First
      = ((Of (0 : Int) ([] : Bytes)).UnmarshalJSON intCodec stringCodec
        (utf8 "\x7b\"key\":42,\"value\":\"hello\"\x7d")).1.First :=
  ⟨by decide,
    ((C10_decode_full_replacement intCodec stringCodec (Of 7 (utf8 "x")) (Of 0 [])
      (utf8 "\x7b\"key\":42,\"value\":\"hello\"\x7d")).2 (by decide)).1⟩

/-- C5. Encode wire format: for every `f` and `s` whose own JSON encodings
succeed with bytes `ef` and `es`, `MarshalJSON` on `Of(f, s)` succeeds and
returns exactly the bytes `{"key":ef,"value":es}`, the key `key` first, the
key `value` second, no other key and no white space; for `Of(42, "hello")`
the result is `{"key":42,"value":"hello"}`. -/
theorem C5_encode_wire_format {F S : Type} (cf : Codec F) (cs : Codec S) (f : F) (s : S)
    (ef es : Bytes) (hf : cf.marshal f = .ok ef) (hs : cs.marshal s = .ok es) :
    (Of f s).MarshalJSON cf cs
        = .ok (utf8 "\x7b\"key\":" ++ ef ++ utf8 ",\"value\":" ++ es ++ utf8 "\x7d") ∧
      (Of (42 : Int) (utf8 "hello")).MarshalJSON intCodec stringCodec
        = .ok (utf8 "\x7b\"key\":42,\"value\":\"hello\"\x7d") := by
  constructor
  · simp [Pair.MarshalJSON, marshalJsonValue, Of, hf, hs]
  · decide

/-- C5 at `Of(42, "hello")`: the encodings `42` and `"hello"` of the fields
give `{"key":42,"value":"hello"}`. -/
theorem C5_encode_wire_format_witness :
    intCodec.marshal 42 = .ok (utf8 "42") ∧
      stringCodec.marshal (utf8 "hello") = .ok (utf8 "\"hello\"") ∧
      (Of (42 : Int) (utf8 "hello")).MarshalJSON intCodec stringCodec
        = .ok (utf8 "\x7b\"key\":" ++ utf8 "42" ++ utf8 ",\"value\":" ++ utf8 "\"hello\""
            ++ utf8 "\x7d") :=
  ⟨by decide, by decide,
    (C5_encode_wire_format intCodec stringCodec 42 (utf8 "hello") (utf8 "42")
      (utf8 "\"hello\"") (by decide) (by decide)).1⟩

/-- C6. `Scan` of text and of bytes is `UnmarshalJSON`: for every pair `p` and
every string `t`, `Scan(t)`, `Scan([]byte(t))` and `UnmarshalJSON([]byte(t))`
return an error in the same cases and leave `p` with the same `First` and
`Second`; for `{"key":1,"value":"hello"}` into a `Pair[int,string]` all three
succeed with 1 and "hello". -/
theorem C6_scan_is_unmarshal {F S : Type} (cf : Codec F) (cs : Codec S) (p : Pair F S)
    (t : Bytes) :
    ((p.Scan cf cs (.string t)).2 = none ↔ (p.UnmarshalJSON cf cs t).2 = none) ∧
    ((p.Scan cf cs (.bytes t)).2 = none ↔ (p.UnmarshalJSON cf cs t).2 = none) ∧
    ((p.Scan cf cs (.string t)).1.First = (p.UnmarshalJSON cf cs t).1.First ∧
      (p.Scan cf cs (.string t)).1.Second = (p.UnmarshalJSON cf cs t).1.Second) ∧
    ((p.Scan cf cs (.bytes t)).1.First = (p.UnmarshalJSON cf cs t).1.First ∧
      (p.Scan cf cs (.bytes t)).1.Second = (p.UnmarshalJSON cf cs t).1.Second) ∧
    ((Of (0 : Int) ([] : Bytes)).Scan intCodec stringCodec
        (.string (utf8 "\x7b\"key\":1,\"value\":\"hello\"\x7d")) = (Of 1 (utf8 "hello"), none) ∧
      (Of (0 : Int) ([] : Bytes)).Scan intCodec stringCodec
        (.bytes (utf8 "\x7b\"key\":1,\"value\":\"hello\"\x7d")) = (Of 1 (utf8 "hello"), none) ∧
      (Of (0 : Int) ([] : Bytes)).UnmarshalJSON intCodec stringCodec
        (utf8 "\x7b\"key\":1,\"value\":\"hello\"\x7d") = (Of 1 (utf8 "hello"), none)) := by
  have e1 : p.Scan cf cs (.string t) = p.UnmarshalJSON cf cs t := jsonUnmarshalPair_eq cf cs p t
  have e2 : p.Scan cf cs (.bytes t) = p.UnmarshalJSON cf cs t := jsonUnmarshalPair_eq cf cs p t
  rw [e1, e2]
  exact ⟨Iff.rfl, Iff.rfl, ⟨rfl, rfl⟩, ⟨rfl, rfl⟩, by decide, by decide, by decide⟩

/-- C9. `Value` agrees with `MarshalJSON`: for every pair `p` whose fields
encode, when they encode, to canonical JSON, `Value()` returns an error
exactly when `MarshalJSON()` does, and otherwise the driver value it returns
is the byte sequence `MarshalJSON()` returns; for `Of(1, "hello")` it is
`{"key":1,"value":"hello"}`. -/
theorem C9_value_agrees_with_marshal {F S : Type} (cf : Codec F) (cs : Codec S)
    (p : Pair F S) (hf : ∀ e, cf.marshal p.f = .ok e → Canonical e)
    (hs : ∀ e, cs.marshal p.s = .ok e → Canonical e) :
    ((∃ e, p.Value cf cs = .error e) ↔ (∃ e, p.MarshalJSON cf cs = .error e)) ∧
    (∀ b, p.MarshalJSON cf cs = .ok b → p.Value cf cs = .ok (.bytes b)) ∧
    ((Of (1 : Int) (utf8 "hello")).Value intCodec stringCodec
      = .ok (.bytes (utf8 "\x7b\"key\":1,\"value\":\"hello\"\x7d"))) := by
  have hok : ∀ b, p.MarshalJSON cf cs = .ok b → p.Value cf cs = .ok (.bytes b) := by
    intro b hb
    unfold Pair.Value jsonMarshalPair
    rw [hb]
    unfold Pair.MarshalJSON marshalJsonValue at hb
    cases hmf : cf.marshal p.f with
    | error e => simp [hmf] at hb
    | ok ef =>
      cases hms : cs.marshal p.s with
      | error e => simp [hmf, hms] at hb
      | ok es =>
        simp only [hmf, hms] at hb
        rw [objText_eq] at hb
        cases hb
        have hread := objText_readsAs [] ef ef [] [] es es [] rfl rfl
          (readsAs_of_canonical ef (hf ef hmf)) rfl rfl (readsAs_of_canonical es (hs es hms))
        have hc := (valueSlice_of_readsAs [] _ _ [] rfl rfl hread).2
        simp only [List.append_nil, List.nil_append] at hc
        simp [hc]
  refine ⟨?_, hok, by decide⟩
  cases hm : p.MarshalJSON cf cs with
  | error e =>
    constructor
    · intro _; exact ⟨e, rfl⟩
    · intro _; exact ⟨.marshaler e, by simp [Pair.Value, jsonMarshalPair, hm]⟩
  | ok b =>
    constructor
    · intro ⟨e, he⟩
      rw [hok b hm] at he
      cases he
    · intro ⟨e, he⟩
      cases he

/-- C9 at `Of(1, "hello")`: the encodings `1` and `"hello"` are canonical and
`Value()` returns the bytes of `MarshalJSON()`. -/
theorem C9_value_agrees_with_marshal_witness :
    (Of (1 : Int) (utf8 "hello")).MarshalJSON intCodec stringCodec
        = .ok (utf8 "\x7b\"key\":1,\"value\":\"hello\"\x7d") ∧
      (Of (1 : Int) (utf8 "hello")).Value intCodec stringCodec
        = .ok (.bytes (utf8 "\x7b\"key\":1,\"value\":\"hello\"\x7d")) :=
  ⟨by decide,
    (C9_value_agrees_with_marshal intCodec stringCodec (Of 1 (utf8 "hello"))
      (fun e he => by
        have h : e = utf8 "1" := by
          have h' : intCodec.marshal (Of (1 : Int) (utf8 "hello")).f = .ok (utf8 "1") := by decide
          rw [h'] at he
          cases he
          rfl
        subst h
        exact ⟨by decide, by decide⟩)
      (fun e he => by
        have h : e = utf8 "\"hello\"" := by
          have h' : stringCodec.marshal (Of (1 : Int) (utf8 "hello")).s
              = .ok (utf8 "\"hello\"") := by decide
          rw [h'] at he
          cases he
          rfl
        subst h
        exact ⟨by decide, by decide⟩)).2.1 _ (by decide)⟩

end pair
